import Mathlib

/-!
Shallow embedding of the single-header C++ class `basic_string_view`
(src/include/string_view.hpp) and proofs about its operations.

Modelling conventions:
* Memory is a byte-addressed total function `Mem := Nat → Nat`; a view never
  owns memory, so every operation that reads characters takes the memory as an
  explicit argument.
* Pointers are addresses (`Nat`), with `0` encoding the null pointer
  (`nullptr`), matching the default-constructed view `{nullptr, 0}`.
* `size_type` is `size_t`; arithmetic on it in the source never under- or
  over-flows on the paths the code actually takes (every subtraction is
  guarded), so sizes and positions are modelled as `Nat`.  The sentinel
  `npos = size_type(-1)` is the explicit constant `2 ^ 64 - 1`; the theorems
  that need a position to be distinguishable from the sentinel carry the
  `size_t`-range hypothesis `m_size < npos` explicitly.
* Throwing `std::out_of_range` is modelled by returning `Option.none`.
* `Traits` is `std::char_traits`: `Traits::compare` is byte-wise three-way
  comparison over a length, `Traits::length` scans to the first zero byte,
  `Traits::copy` copies a non-overlapping range.
-/

/-- Byte-addressed memory: the environment every view aliases into. -/
abbrev Mem := Nat → Nat

/-- `size_type(-1)` for a 64-bit `size_t` (line 65 of the source). -/
def npos : Nat := 2 ^ 64 - 1

/-- The two fields of `basic_string_view` (lines 76-77): a data pointer
(`0` encodes `nullptr`) and a character count. -/
structure StringView where
  m_data : Nat
  m_size : Nat
deriving DecidableEq

namespace StringView

/-- The default constructor (line 88): `m_data(nullptr), m_size(0)`. -/
def defaultView : StringView := ⟨0, 0⟩

/-- `Traits::compare(p, q, n)`: three-way byte comparison of `n` bytes,
returning the sign of the first difference, `0` if all `n` bytes agree.
Structural recursion on the count. -/
def traitsCompare (mem : Mem) : Nat → Nat → Nat → Int
  | _, _, 0 => 0
  | p, q, n + 1 =>
    if mem p < mem q then -1
    else if mem q < mem p then 1
    else traitsCompare mem (p + 1) (q + 1) n

/-- `Traits::length(s)`: the distance to the first zero byte, given that one
exists.  `Nat.find` returns the least index of a zero byte. -/
def traitsLength (mem : Mem) (s : Nat) (h : ∃ n, mem (s + n) = 0) : Nat :=
  Nat.find h

/-- `__strlen` (lines 68-70): `data == nullptr ? 0 : Traits::length(data)`.
The terminator hypothesis is only needed when the pointer is non-null,
mirroring that the null case performs no scan. -/
def strlen (mem : Mem) (data : Nat) (h : data ≠ 0 → ∃ n, mem (data + n) = 0) :
    Nat :=
  if hd : data = 0 then 0 else traitsLength mem data (h hd)

/-- The constructor from a null-terminated buffer (line 111):
`m_data(s), m_size(__strlen(s))`. -/
def fromCString (mem : Mem) (s : Nat) (h : s ≠ 0 → ∃ n, mem (s + n) = 0) :
    StringView :=
  ⟨s, strlen mem s h⟩

/-- `at(pos)` (lines 214-216): the byte at `pos` when `pos < m_size`,
otherwise the out-of-range failure. -/
def at' (mem : Mem) (sv : StringView) (pos : Nat) : Option Nat :=
  if pos < sv.m_size then some (mem (sv.m_data + pos)) else none

/-- The non-throwing core of `substr` (lines 335-336):
`rcount = min(count, m_size - pos)`, then either the canonical empty view or
the alias `{m_data + pos, rcount}`.  (`rcount <= 0` on an unsigned type is
`rcount == 0`.) -/
def substrAt (sv : StringView) (pos count : Nat) : StringView :=
  let rcount := min count (sv.m_size - pos)
  if rcount = 0 then defaultView else ⟨sv.m_data + pos, rcount⟩

/-- `substr(pos, count)` (lines 331-337): throws out-of-range when
`m_size < pos`, otherwise the core computation above. -/
def substr (sv : StringView) (pos count : Nat) : Option StringView :=
  if sv.m_size < pos then none else some (substrAt sv pos count)

/-- `Traits::copy(dest, src, count)`: the resulting memory, with
`[dest, dest+count)` overwritten from `[src, src+count)` (the source bytes are
the pre-call ones; the C++ contract requires the ranges not to overlap). -/
def traitsCopy (mem : Mem) (dest src count : Nat) : Mem :=
  fun a => if dest ≤ a ∧ a < dest + count then mem (src + (a - dest)) else mem a

/-- `copy(dest, count, pos)` (lines 311-318): throws out-of-range when
`m_size < pos`; otherwise copies `rcount = min(count, m_size - pos)` bytes
from `m_data + pos` to `dest` and returns `rcount` together with the updated
memory. -/
def copy (mem : Mem) (sv : StringView) (dest count pos : Nat) :
    Option (Mem × Nat) :=
  if sv.m_size < pos then none
  else
    let rcount := min count (sv.m_size - pos)
    some (traitsCopy mem dest (sv.m_data + pos) rcount, rcount)

/-- `compare(v)` (lines 352-362): three-way comparison over
`rlen = min(m_size, v.m_size)`, then the length tiebreak. -/
def compare (mem : Mem) (a v : StringView) : Int :=
  let rlen := min a.m_size v.m_size
  let comparison := traitsCompare mem a.m_data v.m_data rlen
  if comparison ≠ 0 then comparison
  else if a.m_size = v.m_size then 0
  else if a.m_size < v.m_size then -1 else 1

/-- `operator==` (lines 730-732): `a.compare(b) == 0`. -/
def sveq (mem : Mem) (a b : StringView) : Bool := compare mem a b == 0

/-- The ranged `compare(pos1, count1, v)` (lines 373-375):
`substr(pos1, count1).compare(v)`; an out-of-range failure of `substr`
propagates. -/
def compareSub (mem : Mem) (a : StringView) (pos1 count1 : Nat)
    (v : StringView) : Option Int :=
  (substr a pos1 count1).map (fun s => compare mem s v)

/-- The doubly ranged `compare(pos1, count1, v, pos2, count2)`
(lines 388-391): `substr(pos1, count1).compare(v.substr(pos2, count2))`;
either slice may fail with out-of-range. -/
def compareSub2 (mem : Mem) (a : StringView) (pos1 count1 : Nat)
    (v : StringView) (pos2 count2 : Nat) : Option Int :=
  (substr a pos1 count1).bind
    (fun s1 => (substr v pos2 count2).map (fun s2 => compare mem s1 s2))

/-- `starts_with(sv)` (lines 439-441):
`m_size >= sv.m_size && substr(0, sv.m_size) == sv`.  The slice at position
`0` can never throw, so the non-throwing core is used directly. -/
def starts_with (mem : Mem) (s v : StringView) : Bool :=
  decide (v.m_size ≤ s.m_size) && sveq mem (substrAt s 0 v.m_size) v

/-- `ends_with(sv)` (lines 473-475):
`m_size >= sv.m_size && substr(m_size - sv.m_size, npos) == sv`.  The `&&`
short-circuits, so the slice is only reached when `sv.m_size <= m_size`, where
it cannot throw. -/
def ends_with (mem : Mem) (s v : StringView) : Bool :=
  decide (v.m_size ≤ s.m_size) &&
    sveq mem (substrAt s (s.m_size - v.m_size) npos) v

/-- The scanning loop of `find` (lines 518-523):
`while (pos + v.m_size <= m_size) { if (compare == 0) return pos; pos++; }`.
The loop advances `pos` while the guard holds, so it runs at most
`m_size + 1` times; the extra fuel argument carries that bound and the guard
is re-checked every iteration exactly as in the source. -/
def findLoop (mem : Mem) (hdata vdata vsize hsize : Nat) : Nat → Nat → Nat
  | _, 0 => npos
  | pos, fuel + 1 =>
    if pos + vsize ≤ hsize then
      if traitsCompare mem (hdata + pos) vdata vsize = 0 then pos
      else findLoop mem hdata vdata vsize hsize (pos + 1) fuel
    else npos

/-- `find(v, pos)` (lines 509-526).  The second guard is written with
truncated `Nat` subtraction; thanks to the short-circuit in the source the
two renderings decide identically. -/
def find (mem : Mem) (h v : StringView) (pos : Nat) : Nat :=
  if h.m_size = 0 ∧ v.m_size = 0 ∧ pos = 0 then 0
  else if h.m_size < pos ∨ h.m_size - pos < v.m_size then npos
  else findLoop mem h.m_data v.m_data v.m_size h.m_size pos (h.m_size + 1)

/-- The scanning loop of `rfind` (lines 578-584):
`while (pos != npos) { if (compare == 0) return pos; pos--; }`.  The loop
starts at a clamped position below `npos` and counts down; the unsigned wrap
from `0` to `npos` that terminates it is rendered as the `0` base case. -/
def rfindLoop (mem : Mem) (hdata sdata ssize : Nat) : Nat → Nat
  | 0 => if traitsCompare mem (hdata + 0) sdata ssize = 0 then 0 else npos
  | pos + 1 =>
    if traitsCompare mem (hdata + (pos + 1)) sdata ssize = 0 then pos + 1
    else rfindLoop mem hdata sdata ssize pos

/-- `rfind(s, pos)` (lines 570-587). -/
def rfind (mem : Mem) (h s : StringView) (pos : Nat) : Nat :=
  if s.m_size = 0 then min pos h.m_size
  else if h.m_size < s.m_size then npos
  else rfindLoop mem h.m_data s.m_data s.m_size (min pos (h.m_size - s.m_size))

/-- `v` occurs in `h` at position `i`: the `v.m_size`-long slice of `h`
starting at `i` exists and equals `v` byte for byte. -/
def MatchAt (mem : Mem) (h v : StringView) (i : Nat) : Prop :=
  i + v.m_size ≤ h.m_size ∧
    ∀ j < v.m_size, mem (h.m_data + i + j) = mem (v.m_data + j)

instance (mem : Mem) (h v : StringView) (i : Nat) :
    Decidable (MatchAt mem h v i) := by
  unfold MatchAt; infer_instance

/-- A concrete memory used to evaluate the operations at concrete inputs:
the bytes of the null-terminated string `hello world` live at addresses
`100..110`, the bytes of `world` at `200..204`, and every other address
(in particular `111`, the terminator) holds `0`. -/
def wmem : Mem := fun a =>
  if a = 100 then 104 else if a = 101 then 101 else if a = 102 then 108
  else if a = 103 then 108 else if a = 104 then 111 else if a = 105 then 32
  else if a = 106 then 119 else if a = 107 then 111 else if a = 108 then 114
  else if a = 109 then 108 else if a = 110 then 100
  else if a = 200 then 119 else if a = 201 then 111 else if a = 202 then 114
  else if a = 203 then 108 else if a = 204 then 100
  else 0

/-! ### Helper lemmas -/

lemma wmem_term : (100 : Nat) ≠ 0 → ∃ n, wmem (100 + n) = 0 :=
  fun _ => ⟨11, by decide⟩

lemma traitsCompare_eq_zero_iff (mem : Mem) :
    ∀ (n p q : Nat),
      traitsCompare mem p q n = 0 ↔ ∀ i < n, mem (p + i) = mem (q + i) := by
  intro n
  induction n with
  | zero => intro p q; simp [traitsCompare]
  | succ n ih =>
    intro p q
    unfold traitsCompare
    by_cases h1 : mem p < mem q
    · simp only [h1, if_true]
      constructor
      · intro hc; exact absurd hc (by decide)
      · intro hall
        have h0 := hall 0 (Nat.succ_pos n)
        simp at h0
        omega
    · by_cases h2 : mem q < mem p
      · simp only [h1, if_false, h2, if_true]
        constructor
        · intro hc; exact absurd hc (by decide)
        · intro hall
          have h0 := hall 0 (Nat.succ_pos n)
          simp at h0
          omega
      · have heq : mem p = mem q := by omega
        simp only [h1, if_false, h2, if_false]
        rw [ih (p + 1) (q + 1)]
        constructor
        · intro hall i hi
          match i with
          | 0 => simpa using heq
          | j + 1 =>
            have := hall j (by omega)
            have e1 : p + (j + 1) = p + 1 + j := by omega
            have e2 : q + (j + 1) = q + 1 + j := by omega
            rw [e1, e2]; exact this
        · intro hall j hj
          have := hall (j + 1) (by omega)
          have e1 : p + (j + 1) = p + 1 + j := by omega
          have e2 : q + (j + 1) = q + 1 + j := by omega
          rw [e1, e2] at this; exact this

lemma traitsCompare_neg (mem : Mem) :
    ∀ (n p q : Nat), traitsCompare mem q p n = -traitsCompare mem p q n := by
  intro n
  induction n with
  | zero => intro p q; simp [traitsCompare]
  | succ n ih =>
    intro p q
    unfold traitsCompare
    by_cases h1 : mem p < mem q
    · have h2 : ¬ mem q < mem p := by omega
      simp [h1, h2]
    · by_cases h2 : mem q < mem p
      · simp [h1, h2]
      · simp [h1, h2, ih (p + 1) (q + 1)]

lemma traitsCompare_self (mem : Mem) (p n : Nat) :
    traitsCompare mem p p n = 0 := by
  rw [traitsCompare_eq_zero_iff]
  intro i _
  rfl

lemma compare_def (mem : Mem) (a b : StringView) :
    compare mem a b =
      if traitsCompare mem a.m_data b.m_data (min a.m_size b.m_size) ≠ 0 then
        traitsCompare mem a.m_data b.m_data (min a.m_size b.m_size)
      else if a.m_size = b.m_size then 0
      else if a.m_size < b.m_size then -1 else 1 := rfl

lemma compare_eq_zero_iff (mem : Mem) (a b : StringView) :
    compare mem a b = 0 ↔
      (a.m_size = b.m_size ∧
        ∀ i < a.m_size, mem (a.m_data + i) = mem (b.m_data + i)) := by
  rw [compare_def]
  by_cases hc : traitsCompare mem a.m_data b.m_data (min a.m_size b.m_size) = 0
  · rw [if_neg (by simpa using hc)]
    by_cases hsz : a.m_size = b.m_size
    · rw [if_pos hsz]
      have hmin : min a.m_size b.m_size = a.m_size := by omega
      rw [hmin] at hc
      constructor
      · intro _
        exact ⟨hsz,
          (traitsCompare_eq_zero_iff mem a.m_size a.m_data b.m_data).mp hc⟩
      · intro _; rfl
    · rw [if_neg hsz]
      constructor
      · intro h
        by_cases hlt : a.m_size < b.m_size
        · rw [if_pos hlt] at h; exact absurd h (by decide)
        · rw [if_neg hlt] at h; exact absurd h (by decide)
      · intro h; exact absurd h.1 hsz
  · rw [if_pos (by simpa using hc)]
    constructor
    · intro h; exact absurd h hc
    · intro h
      have hmin : min a.m_size b.m_size = a.m_size := by omega
      rw [hmin] at hc
      exact absurd ((traitsCompare_eq_zero_iff mem a.m_size a.m_data
        b.m_data).mpr h.2) hc

lemma compare_neg (mem : Mem) (a b : StringView) :
    compare mem b a = -compare mem a b := by
  rw [compare_def, compare_def]
  have hmin : min b.m_size a.m_size = min a.m_size b.m_size := by omega
  rw [hmin, traitsCompare_neg]
  by_cases hc : traitsCompare mem a.m_data b.m_data (min a.m_size b.m_size) = 0
  · rw [hc]
    norm_num
    by_cases hsz : a.m_size = b.m_size
    · simp [hsz]
    · have hsz' : ¬ b.m_size = a.m_size := fun h => hsz h.symm
      by_cases hlt : a.m_size < b.m_size
      · have : ¬ b.m_size < a.m_size := by omega
        simp [hsz, hsz', hlt, this]
      · have : b.m_size < a.m_size := by omega
        simp [hsz, hsz', hlt, this]
  · have hc' : ¬ -traitsCompare mem a.m_data b.m_data
        (min a.m_size b.m_size) = 0 := by omega
    rw [if_pos (by simpa using hc'), if_pos (by simpa using hc)]

lemma compare_self (mem : Mem) (a : StringView) : compare mem a a = 0 := by
  rw [compare_eq_zero_iff]
  exact ⟨rfl, fun i _ => rfl⟩

lemma sveq_eq_true_iff (mem : Mem) (a b : StringView) :
    sveq mem a b = true ↔ compare mem a b = 0 := by
  simp [sveq]

lemma substrAt_def (sv : StringView) (pos count : Nat) :
    substrAt sv pos count =
      if min count (sv.m_size - pos) = 0 then defaultView
      else ⟨sv.m_data + pos, min count (sv.m_size - pos)⟩ := rfl

lemma copy_def (mem : Mem) (sv : StringView) (dest count pos : Nat) :
    copy mem sv dest count pos =
      if sv.m_size < pos then none
      else some (traitsCopy mem dest (sv.m_data + pos)
          (min count (sv.m_size - pos)), min count (sv.m_size - pos)) := rfl

lemma substrAt_zero_size (s : StringView) (k : Nat) (hk : k ≤ s.m_size) :
    (substrAt s 0 k).m_size = k := by
  have hmin : min k (s.m_size - 0) = k := by
    rw [Nat.sub_zero]; exact Nat.min_eq_left hk
  rw [substrAt_def, hmin]
  by_cases h0 : k = 0
  · rw [if_pos h0, h0]; rfl
  · rw [if_neg h0]

lemma substrAt_zero_data (s : StringView) (k : Nat) (hk : k ≤ s.m_size)
    (h0 : k ≠ 0) : (substrAt s 0 k).m_data = s.m_data := by
  have hmin : min k (s.m_size - 0) = k := by
    rw [Nat.sub_zero]; exact Nat.min_eq_left hk
  rw [substrAt_def, hmin, if_neg h0]
  rfl

lemma fromCString_wmem_size :
    (fromCString wmem 100 wmem_term).m_size = 11 := by
  show strlen wmem 100 wmem_term = 11
  unfold strlen
  rw [dif_neg (by decide : ¬ (100 : Nat) = 0)]
  unfold traitsLength
  rw [Nat.find_eq_iff]
  exact ⟨by decide, by decide⟩

/-! ### Claim theorems: comparison and slicing -/

/-- Claim C2: `compare` implements the lexicographic-with-length-tiebreak
order: the sign of `a.compare(b)` is the negation of the sign of
`b.compare(a)`; `a.compare(b) == 0` iff the two views have equal length and
equal content, which is also exactly when `a == b`; and when the common-prefix
comparison over `min(a.size, b.size)` characters is equal but `a` is shorter,
`a` compares less. -/
theorem compare_spec (mem : Mem) (a b : StringView) :
    Int.sign (compare mem a b) = -Int.sign (compare mem b a)
  ∧ (compare mem a b = 0 ↔
      (a.m_size = b.m_size ∧
        ∀ i < a.m_size, mem (a.m_data + i) = mem (b.m_data + i)))
  ∧ (compare mem a b = 0 ↔ sveq mem a b = true)
  ∧ (traitsCompare mem a.m_data b.m_data (min a.m_size b.m_size) = 0 →
      a.m_size < b.m_size → compare mem a b = -1) := by
  refine ⟨?_, compare_eq_zero_iff mem a b, (sveq_eq_true_iff mem a b).symm,
    ?_⟩
  · rw [compare_neg mem a b, Int.sign_neg, neg_neg]
  · intro hc hlt
    rw [compare_def, if_neg (by simpa using hc), if_neg (by omega),
      if_pos hlt]

/-- Witness for C2 at a concrete input: `wor` and `world` agree on their
common prefix, so the shorter view compares `-1`. -/
theorem compare_spec_witness :
    traitsCompare wmem (StringView.mk 200 3).m_data (StringView.mk 200 5).m_data
        (min (StringView.mk 200 3).m_size (StringView.mk 200 5).m_size) = 0 ∧
    (StringView.mk 200 3).m_size < (StringView.mk 200 5).m_size ∧
    compare wmem ⟨200, 3⟩ ⟨200, 5⟩ = -1 :=
  ⟨by decide, by decide,
    (compare_spec wmem ⟨200, 3⟩ ⟨200, 5⟩).2.2.2 (by decide) (by decide)⟩

/-- Claim C3: for `pos <= size`, `substr(pos, count)` succeeds with a view of
size `min(count, size - pos)` whose data (when that size is positive) aliases
`data + pos`; `substr` fails with the out-of-range condition exactly when
`pos > size`. -/
theorem substr_spec (sv : StringView) (pos count : Nat) :
    (substr sv pos count = none ↔ sv.m_size < pos)
  ∧ (pos ≤ sv.m_size →
      substr sv pos count = some (substrAt sv pos count) ∧
      (substrAt sv pos count).m_size = min count (sv.m_size - pos) ∧
      (0 < min count (sv.m_size - pos) →
        (substrAt sv pos count).m_data = sv.m_data + pos)) := by
  constructor
  · unfold substr
    by_cases h : sv.m_size < pos
    · simp [h]
    · simp [h]
  · intro hp
    refine ⟨by rw [substr, if_neg (by omega)], ?_, ?_⟩
    · rw [substrAt_def]
      by_cases h0 : min count (sv.m_size - pos) = 0
      · rw [if_pos h0, h0]; rfl
      · rw [if_neg h0]
    · intro hpos0
      rw [substrAt_def, if_neg (by omega)]

/-- Witness for C3 at a concrete input: slicing `hello world` at position 6
with an oversized count yields the 5-byte alias starting at `data + 6`. -/
theorem substr_spec_witness :
    (6 : Nat) ≤ (StringView.mk 100 11).m_size ∧
    substr ⟨100, 11⟩ 6 99 = some (substrAt ⟨100, 11⟩ 6 99) ∧
    (substrAt (StringView.mk 100 11) 6 99).m_size =
      min 99 ((StringView.mk 100 11).m_size - 6) ∧
    (substrAt (StringView.mk 100 11) 6 99).m_data =
      (StringView.mk 100 11).m_data + 6 :=
  ⟨by decide,
    ((substr_spec ⟨100, 11⟩ 6 99).2 (by decide)).1,
    ((substr_spec ⟨100, 11⟩ 6 99).2 (by decide)).2.1,
    ((substr_spec ⟨100, 11⟩ 6 99).2 (by decide)).2.2 (by decide)⟩

/-- Claim C4: whenever `pos <= size` and the computed length
`min(count, size - pos)` is `0`, `substr(pos, count)` returns the canonical
empty view — null data and zero size, i.e. exactly the default-constructed
view — rather than a zero-length alias into the buffer. -/
theorem substr_canonical_empty (sv : StringView) (pos count : Nat)
    (h1 : pos ≤ sv.m_size) (h2 : min count (sv.m_size - pos) = 0) :
    substr sv pos count = some defaultView ∧
    defaultView.m_data = 0 ∧ defaultView.m_size = 0 := by
  refine ⟨?_, rfl, rfl⟩
  rw [substr, if_neg (by omega), substrAt_def, if_pos h2]

/-- Witness for C4 at a concrete input: the zero-length slice at the very end
of `hello world` is the canonical empty view. -/
theorem substr_canonical_empty_witness :
    (11 : Nat) ≤ (StringView.mk 100 11).m_size ∧
    min 4 ((StringView.mk 100 11).m_size - 11) = 0 ∧
    substr ⟨100, 11⟩ 11 4 = some defaultView :=
  ⟨by decide, by decide,
    (substr_canonical_empty ⟨100, 11⟩ 11 4 (by decide) (by decide)).1⟩

/-- Specification of the bounded `find` loop: with enough fuel to outlast the
guard, the loop returns the least matching position at or after `pos`, or
`npos` when none exists. -/
lemma findLoop_spec (mem : Mem) (hd vd vs hs : Nat) :
    ∀ fuel pos, hs + 1 ≤ pos + vs + fuel →
      (∃ i, findLoop mem hd vd vs hs pos fuel = i ∧ pos ≤ i ∧ i + vs ≤ hs ∧
          traitsCompare mem (hd + i) vd vs = 0 ∧
          ∀ j, pos ≤ j → j < i → j + vs ≤ hs →
            traitsCompare mem (hd + j) vd vs ≠ 0) ∨
      (findLoop mem hd vd vs hs pos fuel = npos ∧
          ∀ j, pos ≤ j → j + vs ≤ hs →
            traitsCompare mem (hd + j) vd vs ≠ 0) := by
  intro fuel
  induction fuel with
  | zero =>
    intro pos hfuel
    right
    refine ⟨rfl, fun j hj hjle => ?_⟩
    omega
  | succ fuel ih =>
    intro pos hfuel
    unfold findLoop
    by_cases hguard : pos + vs ≤ hs
    · by_cases hcmp : traitsCompare mem (hd + pos) vd vs = 0
      · left
        exact ⟨pos, by simp [hguard, hcmp], le_rfl, hguard, hcmp,
          fun j hj hjlt _ => by omega⟩
      · simp only [if_pos hguard, if_neg hcmp]
        rcases ih (pos + 1) (by omega) with
          ⟨i, heq, hpi, hile, hc, hmin⟩ | ⟨heq, hnone⟩
        · left
          refine ⟨i, heq, by omega, hile, hc, fun j hj hjlt hjle => ?_⟩
          rcases Nat.eq_or_lt_of_le hj with hj' | hj'
          · rw [← hj']; exact hcmp
          · exact hmin j hj' hjlt hjle
        · right
          refine ⟨heq, fun j hj hjle => ?_⟩
          rcases Nat.eq_or_lt_of_le hj with hj' | hj'
          · rw [← hj']; exact hcmp
          · exact hnone j hj' hjle
    · right
      refine ⟨by simp [hguard], fun j hj hjle => ?_⟩
      omega

/-- Specification of the counting-down `rfind` loop: it returns the greatest
matching position at or below `pos`, or `npos` when none exists. -/
lemma rfindLoop_spec (mem : Mem) (hd sd ss : Nat) :
    ∀ pos,
      (∃ i, rfindLoop mem hd sd ss pos = i ∧ i ≤ pos ∧
          traitsCompare mem (hd + i) sd ss = 0 ∧
          ∀ j, i < j → j ≤ pos → traitsCompare mem (hd + j) sd ss ≠ 0) ∨
      (rfindLoop mem hd sd ss pos = npos ∧
          ∀ j ≤ pos, traitsCompare mem (hd + j) sd ss ≠ 0) := by
  intro pos
  induction pos with
  | zero =>
    by_cases hcmp : traitsCompare mem (hd + 0) sd ss = 0
    · left
      refine ⟨0, ?_, le_rfl, hcmp, fun j hj hjle => by omega⟩
      unfold rfindLoop
      rw [if_pos hcmp]
    · right
      refine ⟨?_, fun j hj => ?_⟩
      · unfold rfindLoop
        rw [if_neg hcmp]
      · have hj0 : j = 0 := by omega
        rw [hj0]; exact hcmp
  | succ pos ih =>
    by_cases hcmp : traitsCompare mem (hd + (pos + 1)) sd ss = 0
    · left
      refine ⟨pos + 1, ?_, le_rfl, hcmp, fun j hj hjle => by omega⟩
      unfold rfindLoop
      rw [if_pos hcmp]
    · rcases ih with ⟨i, heq, hile, hc, hmin⟩ | ⟨heq, hnone⟩
      · left
        refine ⟨i, ?_, by omega, hc, fun j hj hjle => ?_⟩
        · unfold rfindLoop
          rw [if_neg hcmp]; exact heq
        · rcases Nat.eq_or_lt_of_le hjle with hj' | hj'
          · rw [hj']; exact hcmp
          · exact hmin j hj (by omega)
      · right
        refine ⟨?_, fun j hj => ?_⟩
        · unfold rfindLoop
          rw [if_neg hcmp]; exact heq
        · rcases Nat.eq_or_lt_of_le hj with hj' | hj'
          · rw [hj']; exact hcmp
          · exact hnone j (by omega)

/-! ### Claim theorems: searching -/

/-- Claim C1: `find(v, pos)` returns `0` when haystack and needle are both
empty and `pos == 0`; returns `npos` when `pos > size` or the needle cannot
fit in the remaining range; and otherwise returns the smallest index
`i >= pos` whose `v.size`-length slice equals `v` element-wise, with `npos`
exactly when no such slice exists at or after `pos`. -/
theorem find_spec (mem : Mem) (h v : StringView) (pos : Nat)
    (hh : h.m_size < npos) :
    ((h.m_size = 0 ∧ v.m_size = 0 ∧ pos = 0) → find mem h v pos = 0)
  ∧ ((h.m_size < pos ∨ h.m_size - pos < v.m_size) → find mem h v pos = npos)
  ∧ (pos ≤ h.m_size → v.m_size ≤ h.m_size - pos →
      ((find mem h v pos ≠ npos →
          pos ≤ find mem h v pos ∧ MatchAt mem h v (find mem h v pos) ∧
          ∀ j, pos ≤ j → j < find mem h v pos → ¬ MatchAt mem h v j)
       ∧ (find mem h v pos = npos ↔
            ∀ i, pos ≤ i → ¬ MatchAt mem h v i))) := by
  by_cases hsp : h.m_size = 0 ∧ v.m_size = 0 ∧ pos = 0
  · have hf : find mem h v pos = 0 := by unfold find; rw [if_pos hsp]
    obtain ⟨h1, h2, h3⟩ := hsp
    refine ⟨fun _ => hf, fun hc => by omega, fun hp hv => ?_⟩
    rw [hf]
    constructor
    · intro _
      exact ⟨by omega, ⟨by omega, fun j hj => by omega⟩,
        fun j hj hjlt => by omega⟩
    · constructor
      · intro h0
        exact absurd h0 (by decide)
      · intro hall
        exact absurd (hall 0 (by omega) ⟨by omega, fun j hj => by omega⟩)
          not_false
  · by_cases hg : h.m_size < pos ∨ h.m_size - pos < v.m_size
    · have hf : find mem h v pos = npos := by
        unfold find; rw [if_neg hsp, if_pos hg]
      exact ⟨fun hc => absurd hc hsp, fun _ => hf,
        fun hp hv => absurd hg (by omega)⟩
    · have hf : find mem h v pos =
          findLoop mem h.m_data v.m_data v.m_size h.m_size pos
            (h.m_size + 1) := by
        unfold find; rw [if_neg hsp, if_neg hg]
      refine ⟨fun hc => absurd hc hsp, fun hc => absurd hc hg,
        fun hp hv => ?_⟩
      rcases findLoop_spec mem h.m_data v.m_data v.m_size h.m_size
          (h.m_size + 1) pos (by omega) with
        ⟨i, heq, hpi, hile, hc, hmin⟩ | ⟨heq, hnone⟩
      · have hfi : find mem h v pos = i := hf.trans heq
        have hine : i ≠ npos := by omega
        have hcontent : ∀ j < v.m_size,
            mem (h.m_data + i + j) = mem (v.m_data + j) :=
          (traitsCompare_eq_zero_iff mem v.m_size (h.m_data + i)
            v.m_data).mp hc
        rw [hfi]
        constructor
        · intro _
          refine ⟨hpi, ⟨hile, hcontent⟩, fun j hjp hjlt hM => ?_⟩
          exact hmin j hjp hjlt hM.1
            ((traitsCompare_eq_zero_iff mem v.m_size (h.m_data + j)
              v.m_data).mpr hM.2)
        · constructor
          · intro h0; exact absurd h0 hine
          · intro hall
            exact absurd (hall i hpi ⟨hile, hcontent⟩) not_false
      · have hfn : find mem h v pos = npos := hf.trans heq
        rw [hfn]
        constructor
        · intro hne; exact absurd rfl hne
        · constructor
          · intro _ i hi hM
            exact hnone i hi hM.1
              ((traitsCompare_eq_zero_iff mem v.m_size (h.m_data + i)
                v.m_data).mpr hM.2)
          · intro _; rfl

/-- Witness for C1 at a concrete input: `find` locates `world` inside
`hello world` (the slice at the returned index matches the needle). -/
theorem find_spec_witness :
    (StringView.mk 100 11).m_size < npos ∧
    (0 : Nat) ≤ (StringView.mk 100 11).m_size ∧
    (StringView.mk 200 5).m_size ≤ (StringView.mk 100 11).m_size - 0 ∧
    find wmem ⟨100, 11⟩ ⟨200, 5⟩ 0 ≠ npos ∧
    MatchAt wmem ⟨100, 11⟩ ⟨200, 5⟩ (find wmem ⟨100, 11⟩ ⟨200, 5⟩ 0) :=
  ⟨by decide, by decide, by decide, by decide,
    (((find_spec wmem ⟨100, 11⟩ ⟨200, 5⟩ 0 (by decide)).2.2 (by decide)
      (by decide)).1 (by decide)).2.1⟩

/-- Claim C5: `rfind(v, pos)` returns `min(pos, size)` for an empty needle;
`npos` when the needle is longer than the haystack; and otherwise the largest
index `i <= min(pos, size - v.size)` whose slice equals `v`, with `npos` when
no index in that range matches. -/
theorem rfind_spec (mem : Mem) (h s : StringView) (pos : Nat)
    (hh : h.m_size < npos) :
    (s.m_size = 0 → rfind mem h s pos = min pos h.m_size)
  ∧ (h.m_size < s.m_size → rfind mem h s pos = npos)
  ∧ (s.m_size ≠ 0 → s.m_size ≤ h.m_size →
      ((rfind mem h s pos ≠ npos →
          rfind mem h s pos ≤ min pos (h.m_size - s.m_size) ∧
          MatchAt mem h s (rfind mem h s pos) ∧
          ∀ j, rfind mem h s pos < j → j ≤ min pos (h.m_size - s.m_size) →
            ¬ MatchAt mem h s j)
       ∧ (rfind mem h s pos = npos ↔
            ∀ i ≤ min pos (h.m_size - s.m_size), ¬ MatchAt mem h s i))) := by
  refine ⟨fun h0 => by unfold rfind; rw [if_pos h0],
    fun hlt => by unfold rfind; rw [if_neg (by omega), if_pos hlt],
    fun hs0 hsh => ?_⟩
  have hf : rfind mem h s pos =
      rfindLoop mem h.m_data s.m_data s.m_size
        (min pos (h.m_size - s.m_size)) := by
    unfold rfind; rw [if_neg hs0, if_neg (by omega)]
  have hPle : min pos (h.m_size - s.m_size) ≤ h.m_size - s.m_size :=
    Nat.min_le_right _ _
  rcases rfindLoop_spec mem h.m_data s.m_data s.m_size
      (min pos (h.m_size - s.m_size)) with
    ⟨i, heq, hiP, hc, hmin⟩ | ⟨heq, hnone⟩
  · have hfi : rfind mem h s pos = i := hf.trans heq
    have hine : i ≠ npos := by omega
    have hcontent : ∀ j < s.m_size,
        mem (h.m_data + i + j) = mem (s.m_data + j) :=
      (traitsCompare_eq_zero_iff mem s.m_size (h.m_data + i) s.m_data).mp hc
    rw [hfi]
    constructor
    · intro _
      refine ⟨hiP, ⟨by omega, hcontent⟩, fun j hjgt hjle hM => ?_⟩
      exact hmin j hjgt hjle
        ((traitsCompare_eq_zero_iff mem s.m_size (h.m_data + j)
          s.m_data).mpr hM.2)
    · constructor
      · intro h0; exact absurd h0 hine
      · intro hall
        exact absurd (hall i hiP ⟨by omega, hcontent⟩) not_false
  · have hfn : rfind mem h s pos = npos := hf.trans heq
    rw [hfn]
    constructor
    · intro hne; exact absurd rfl hne
    · constructor
      · intro _ i hi hM
        exact hnone i hi
          ((traitsCompare_eq_zero_iff mem s.m_size (h.m_data + i)
            s.m_data).mpr hM.2)
      · intro _; rfl

/-- Witness for C5 at a concrete input: `rfind` with the default upper bound
`npos` locates `world` inside `hello world` at a valid matching position. -/
theorem rfind_spec_witness :
    (StringView.mk 100 11).m_size < npos ∧
    (StringView.mk 200 5).m_size ≠ 0 ∧
    (StringView.mk 200 5).m_size ≤ (StringView.mk 100 11).m_size ∧
    rfind wmem ⟨100, 11⟩ ⟨200, 5⟩ npos ≠ npos ∧
    MatchAt wmem ⟨100, 11⟩ ⟨200, 5⟩ (rfind wmem ⟨100, 11⟩ ⟨200, 5⟩ npos) :=
  ⟨by decide, by decide, by decide, by decide,
    (((rfind_spec wmem ⟨100, 11⟩ ⟨200, 5⟩ npos (by decide)).2.2 (by decide)
      (by decide)).1 (by decide)).2.1⟩

/-- Claim C10: searching any haystack for an empty needle returns `pos`
whenever `pos <= size` (including `pos == size`, the empty slice at the end)
and `npos` whenever `pos > size`. -/
theorem find_empty_needle (mem : Mem) (h v : StringView) (pos : Nat)
    (hv : v.m_size = 0) :
    (pos ≤ h.m_size → find mem h v pos = pos)
  ∧ (h.m_size < pos → find mem h v pos = npos) := by
  constructor
  · intro hp
    by_cases hsp : h.m_size = 0 ∧ v.m_size = 0 ∧ pos = 0
    · unfold find; rw [if_pos hsp]; exact hsp.2.2.symm
    · unfold find
      rw [if_neg hsp, if_neg (by omega)]
      unfold findLoop
      rw [hv, if_pos (by omega)]
      have hc : traitsCompare mem (h.m_data + pos) v.m_data 0 = 0 := rfl
      rw [if_pos hc]
  · intro hp
    have hsp : ¬ (h.m_size = 0 ∧ v.m_size = 0 ∧ pos = 0) := by omega
    unfold find
    rw [if_neg hsp, if_pos (Or.inl hp)]

/-- Witness for C10 at a concrete input: the empty needle is found exactly at
the start position. -/
theorem find_empty_needle_witness :
    (StringView.mk 0 0).m_size = 0 ∧ (2 : Nat) ≤ (StringView.mk 100 3).m_size ∧
    find wmem ⟨100, 3⟩ ⟨0, 0⟩ 2 = 2 :=
  ⟨rfl, by decide, (find_empty_needle wmem ⟨100, 3⟩ ⟨0, 0⟩ 2 rfl).1 (by decide)⟩

/-! ### Claim theorems: prefix/suffix predicates -/

/-- Claim C6: for every `k <= s.size`, `s.starts_with(s.substr(0, k))` holds,
and symmetrically `s.ends_with(s.substr(s.size - k))` holds; in general
`starts_with(v)` is true iff `s.size >= v.size` and the leading `v.size`
characters of `s` equal `v` byte for byte. -/
theorem starts_ends_spec (mem : Mem) (s v : StringView) (k : Nat)
    (hs : s.m_size ≤ npos) (hk : k ≤ s.m_size) :
    starts_with mem s (substrAt s 0 k) = true
  ∧ ends_with mem s (substrAt s (s.m_size - k) npos) = true
  ∧ (starts_with mem s v = true ↔
      (v.m_size ≤ s.m_size ∧
        ∀ i < v.m_size, mem (s.m_data + i) = mem (v.m_data + i))) := by
  refine ⟨?_, ?_, ?_⟩
  · unfold starts_with
    rw [substrAt_zero_size s k hk, Bool.and_eq_true]
    exact ⟨decide_eq_true hk, (sveq_eq_true_iff _ _ _).mpr (compare_self _ _)⟩
  · have hmin' : min npos (s.m_size - (s.m_size - k)) = k := by
      have e1 : s.m_size - (s.m_size - k) = k := by omega
      rw [e1]; exact Nat.min_eq_right (by omega)
    have hw' : (substrAt s (s.m_size - k) npos).m_size = k := by
      rw [substrAt_def, hmin']
      by_cases h0 : k = 0
      · rw [if_pos h0, h0]; rfl
      · rw [if_neg h0]
    unfold ends_with
    rw [hw', Bool.and_eq_true]
    exact ⟨decide_eq_true hk, (sveq_eq_true_iff _ _ _).mpr (compare_self _ _)⟩
  · constructor
    · intro hsw
      unfold starts_with at hsw
      rw [Bool.and_eq_true] at hsw
      obtain ⟨hle', hq⟩ := hsw
      have hle : v.m_size ≤ s.m_size := of_decide_eq_true hle'
      have hq0 := (compare_eq_zero_iff mem (substrAt s 0 v.m_size) v).mp
        ((sveq_eq_true_iff mem (substrAt s 0 v.m_size) v).mp hq)
      refine ⟨hle, fun i hi => ?_⟩
      by_cases hv0 : v.m_size = 0
      · omega
      · have hgot := hq0.2 i
          (by rw [substrAt_zero_size s v.m_size hle]; exact hi)
        rw [substrAt_zero_data s v.m_size hle hv0] at hgot
        exact hgot
    · rintro ⟨hle, hcontent⟩
      unfold starts_with
      rw [Bool.and_eq_true]
      refine ⟨decide_eq_true hle, (sveq_eq_true_iff _ _ _).mpr
        ((compare_eq_zero_iff _ _ _).mpr
          ⟨substrAt_zero_size s v.m_size hle, fun i hi => ?_⟩)⟩
      rw [substrAt_zero_size s v.m_size hle] at hi
      by_cases hv0 : v.m_size = 0
      · omega
      · rw [substrAt_zero_data s v.m_size hle hv0]
        exact hcontent i hi

/-- Witness for C6 at a concrete input: `hello world` starts with its own
5-byte leading slice. -/
theorem starts_ends_spec_witness :
    (StringView.mk 100 11).m_size ≤ npos ∧
    (5 : Nat) ≤ (StringView.mk 100 11).m_size ∧
    starts_with wmem ⟨100, 11⟩ (substrAt ⟨100, 11⟩ 0 5) = true :=
  ⟨by decide, by decide,
    (starts_ends_spec wmem ⟨100, 11⟩ ⟨200, 5⟩ 5 (by decide) (by decide)).1⟩

/-! ### Claim theorems: error handling, copy, construction -/

/-- Claim C7 counterexample: the claim says the out-of-range failure is
raised only by `at`, `substr`, and the ranged `compare`/`find` overloads, and
exactly when the requested start position exceeds the view's length.  But
`copy` — absent from that list — also raises it (here at `pos = 3` on a view
of size `2`), and `at` raises it already at `pos == size` (here `pos = 2`),
a position that does not exceed the length. -/
theorem error_conditions_counterexample :
    copy (fun _ => 0) ⟨1, 2⟩ 100 5 3 = none ∧
    at' (fun _ => 0) ⟨1, 2⟩ 2 = none ∧
    ¬ ((2 : Nat) > (StringView.mk 1 2).m_size) :=
  ⟨by rw [copy_def, if_pos (by decide)], by rw [at', if_neg (by decide)],
    by decide⟩

/-- Claim C7 (amended): the out-of-range condition is the only recoverable
failure; it is raised by `at` exactly when the index is at least the size,
and by `substr`, `copy`, and the ranged `compare` overloads that internally
slice first exactly when the requested start position exceeds the size.
Every other operation is modelled as a total function and raises nothing. -/
theorem error_conditions (mem : Mem) (sv v : StringView)
    (dest count pos pos1 count1 pos2 count2 : Nat) :
    (at' mem sv pos = none ↔ sv.m_size ≤ pos)
  ∧ (substr sv pos count = none ↔ sv.m_size < pos)
  ∧ (copy mem sv dest count pos = none ↔ sv.m_size < pos)
  ∧ (compareSub mem sv pos1 count1 v = none ↔ sv.m_size < pos1)
  ∧ (compareSub2 mem sv pos1 count1 v pos2 count2 = none ↔
      (sv.m_size < pos1 ∨ v.m_size < pos2)) := by
  refine ⟨?_, ?_, ?_, ?_, ?_⟩
  · unfold at'
    by_cases hp : pos < sv.m_size
    · rw [if_pos hp]
      constructor
      · intro hx; exact absurd hx (by simp)
      · intro hx; omega
    · rw [if_neg hp]
      constructor
      · intro _; omega
      · intro _; rfl
  · unfold substr
    by_cases hp : sv.m_size < pos
    · simp [hp]
    · simp [hp]
  · rw [copy_def]
    by_cases hp : sv.m_size < pos
    · simp [hp]
    · simp [hp]
  · unfold compareSub substr
    by_cases hp : sv.m_size < pos1
    · simp [hp]
    · simp [hp]
  · unfold compareSub2 substr
    by_cases hp1 : sv.m_size < pos1
    · simp [hp1]
    · by_cases hp2 : v.m_size < pos2
      · simp [hp1, hp2]
      · simp [hp1, hp2]

/-- Claim C8: for a view built from a null-terminated buffer and any
`pos <= size`, `copy(dest, count, pos)` succeeds, copies exactly
`rcount = min(count, size - pos)` characters (addresses outside
`[dest, dest + rcount)` are untouched), returns `rcount`, and the full copy
(`count = size`, `pos = 0`) into a disjoint same-sized destination buffer
reproduces the original bytes exactly. -/
theorem copy_roundtrip (mem : Mem) (s dest count pos : Nat)
    (hterm : s ≠ 0 → ∃ n, mem (s + n) = 0)
    (hdisj : s + (fromCString mem s hterm).m_size ≤ dest ∨
      dest + (fromCString mem s hterm).m_size ≤ s)
    (hpos : pos ≤ (fromCString mem s hterm).m_size) :
    (∃ mem2,
        copy mem (fromCString mem s hterm) dest count pos =
          some (mem2, min count ((fromCString mem s hterm).m_size - pos)) ∧
        (∀ i < min count ((fromCString mem s hterm).m_size - pos),
          mem2 (dest + i) = mem (s + pos + i)) ∧
        (∀ a, (a < dest ∨
            dest + min count ((fromCString mem s hterm).m_size - pos) ≤ a) →
          mem2 a = mem a))
  ∧ (∃ mem2,
        copy mem (fromCString mem s hterm) dest
          (fromCString mem s hterm).m_size 0 =
            some (mem2, (fromCString mem s hterm).m_size) ∧
        ∀ i < (fromCString mem s hterm).m_size,
          mem2 (dest + i) = mem (s + i)) := by
  constructor
  · refine ⟨traitsCopy mem dest (s + pos)
      (min count ((fromCString mem s hterm).m_size - pos)), ?_, ?_, ?_⟩
    · rw [copy_def, if_neg (by omega)]
      rfl
    · intro i hi
      unfold traitsCopy
      rw [if_pos ⟨Nat.le_add_right _ _, by omega⟩]
      congr 1
      omega
    · intro a ha
      unfold traitsCopy
      rw [if_neg (by omega)]
  · have hrc : min (fromCString mem s hterm).m_size
        ((fromCString mem s hterm).m_size - 0) =
        (fromCString mem s hterm).m_size := by
      rw [Nat.sub_zero, Nat.min_self]
    refine ⟨traitsCopy mem dest (s + 0) (fromCString mem s hterm).m_size,
      ?_, ?_⟩
    · rw [copy_def, if_neg (by omega), hrc]
      rfl
    · intro i hi
      unfold traitsCopy
      rw [if_pos ⟨Nat.le_add_right _ _, by omega⟩]
      congr 1
      omega

/-- Witness for C8 at a concrete input: copying all of `hello world` (built
from its null-terminated buffer at address 100) to the disjoint buffer at
address 300 reproduces the original bytes. -/
theorem copy_roundtrip_witness :
    (100 + (fromCString wmem 100 wmem_term).m_size ≤ 300 ∨
      300 + (fromCString wmem 100 wmem_term).m_size ≤ 100) ∧
    (0 : Nat) ≤ (fromCString wmem 100 wmem_term).m_size ∧
    (∃ mem2,
        copy wmem (fromCString wmem 100 wmem_term) 300
          (fromCString wmem 100 wmem_term).m_size 0 =
            some (mem2, (fromCString wmem 100 wmem_term).m_size) ∧
        ∀ i < (fromCString wmem 100 wmem_term).m_size,
          mem2 (300 + i) = wmem (100 + i)) :=
  ⟨Or.inl (by rw [fromCString_wmem_size]; omega), Nat.zero_le _,
    (copy_roundtrip wmem 100 300 0 0 wmem_term
      (Or.inl (by rw [fromCString_wmem_size]; omega)) (Nat.zero_le _)).2⟩

/-- Claim C9: constructing a view from a null-terminated buffer stores the
pointer and sets the size to the number of characters strictly before the
terminator (the byte at `data + size` is `0` and no earlier byte is); a null
pointer instead yields the empty view with null data and zero size, with no
scan required. -/
theorem fromCString_spec (mem : Mem) (s : Nat)
    (h : s ≠ 0 → ∃ n, mem (s + n) = 0) :
    (fromCString mem s h).m_data = s
  ∧ (s ≠ 0 → mem (s + (fromCString mem s h).m_size) = 0 ∧
      ∀ i < (fromCString mem s h).m_size, mem (s + i) ≠ 0)
  ∧ (s = 0 → fromCString mem s h = defaultView) := by
  refine ⟨rfl, ?_, ?_⟩
  · intro hs
    have hsz : (fromCString mem s h).m_size = Nat.find (h hs) := by
      show strlen mem s h = _
      unfold strlen
      rw [dif_neg hs]
      rfl
    rw [hsz]
    exact ⟨Nat.find_spec (h hs), fun i hi => Nat.find_min (h hs) hi⟩
  · intro hs
    show (⟨s, strlen mem s h⟩ : StringView) = defaultView
    unfold strlen
    rw [dif_pos hs, hs]
    rfl

/-- Witness for C9 at a concrete input: the view built over the
null-terminated buffer at address 100 ends exactly at the terminator. -/
theorem fromCString_spec_witness :
    (100 : Nat) ≠ 0 ∧
    wmem (100 + (fromCString wmem 100 wmem_term).m_size) = 0 :=
  ⟨by decide, ((fromCString_spec wmem 100 wmem_term).2.1 (by decide)).1⟩

end StringView
